import Mathlib

/-
Verification of the IMDb review scraping and sentiment pipeline.

The development shallowly embeds the pipeline code: Python strings are
List Char, pandas Series and DataFrames are Lean lists, machine floats
are exact rationals, and the external services (the Cinemagoer movie
lookup, the selenium browser session, the NLTK lexical resources and
the TextBlob scorer) are parameters or explicitly modelled fragments.
-/

/-- Conversion from a Lean string literal to the character-list
representation used throughout the embedding. -/
def toL (s : String) : List Char := s.data

/- ------------------------------------------------------------------
Aggregation and bucketing (src/app.py)
------------------------------------------------------------------ -/

/-- Embedding of app.py polarity_bucket: thresholds 0.05 and -0.05. -/
def polarity_bucket (p : ℚ) : String :=
  if p > 0.05 then "Positive"
  else if p < -0.05 then "Negative"
  else "Neutral"

/-- Embedding of the pandas Series mean used at app.py line 163:
sum of the values divided by their count. -/
def seriesMean (l : List ℚ) : ℚ := l.sum / l.length

/-- Embedding of app.py line 166: the overall bucket is the bucketing
rule applied to the mean polarity. -/
def overall_sentiment (ps : List ℚ) : String := polarity_bucket (seriesMean ps)

/-- Row of the scored table built by analyze_sentiment. -/
structure ScoredRow where
  raw_reviews : List Char
  reviews : List Char
  polarity : ℚ
  subjectivity : ℚ
deriving DecidableEq, Repr

/-- Stable descending insertion: a lands before the first element whose
key does not exceed its own, so among equal keys earlier rows stay first.
This is the tie behaviour of pandas nlargest with the default keep. -/
def insertDescBy (key : ScoredRow → ℚ) (a : ScoredRow) : List ScoredRow → List ScoredRow
  | [] => [a]
  | b :: bs => if key b > key a then b :: insertDescBy key a bs else a :: b :: bs

/-- Stable descending sort by a key (model of the order pandas nlargest uses). -/
def sortDescBy (key : ScoredRow → ℚ) : List ScoredRow → List ScoredRow
  | [] => []
  | x :: xs => insertDescBy key x (sortDescBy key xs)

/-- Stable ascending insertion, the order behind pandas nsmallest. -/
def insertAscBy (key : ScoredRow → ℚ) (a : ScoredRow) : List ScoredRow → List ScoredRow
  | [] => [a]
  | b :: bs => if key b < key a then b :: insertAscBy key a bs else a :: b :: bs

/-- Stable ascending sort by a key. -/
def sortAscBy (key : ScoredRow → ℚ) : List ScoredRow → List ScoredRow
  | [] => []
  | x :: xs => insertAscBy key x (sortAscBy key xs)

/-- Embedding of app.py line 258: df.nlargest(3, polarity column) with the
default first-occurrence tie keeping. -/
def top_positive (df : List ScoredRow) : List ScoredRow :=
  (sortDescBy ScoredRow.polarity df).take 3

/-- Embedding of app.py line 271: df.nsmallest(3, polarity column). -/
def top_negative (df : List ScoredRow) : List ScoredRow :=
  (sortAscBy ScoredRow.polarity df).take 3

/- ------------------------------------------------------------------
Movie resolver (src/utils/FindMovie.py)
------------------------------------------------------------------ -/

/-- Candidate returned by the external movie lookup: title, optional
year and the opaque movieID used to build review links. -/
structure MovieCandidate where
  title : List Char
  year : Option Nat
  movieID : List Char
deriving DecidableEq, Repr

/-- Embedding of FindMovie.search_movies: the external lookup result is
the parameter; the function prints the first ten entries but returns the
whole result list unchanged. -/
def search_movies (results : List MovieCandidate) : List MovieCandidate :=
  results

/-- Embedding of app.py line 106: the caller truncates the lookup result
to the first ten candidates. -/
def get_movie_candidates_capped (results : List MovieCandidate) : List MovieCandidate :=
  (search_movies results).take 10

/-- URL built by find_and_get_reviews_link from a movieID. -/
def reviewsUrl (movieID : List Char) : List Char :=
  toL "https://www.imdb.com/title/tt" ++ movieID ++ toL "/reviews"

/-- Embedding of FindMovie.find_and_get_reviews_link: a fresh lookup
result is the parameter; the first candidate of that fresh lookup (and
nothing else) determines the returned link, and an empty lookup yields
none. -/
def find_and_get_reviews_link (results : List MovieCandidate) : Option (List Char) :=
  match results with
  | [] => none
  | movie :: _ => some (reviewsUrl movie.movieID)

/- ------------------------------------------------------------------
Review extractor (src/utils/Scrapper.py)
------------------------------------------------------------------ -/

/-- Embedding of the selector logic of extract_imdb_reviews lines 65-76:
the texts found by the primary selector and by the fallback selector are
the parameters; the fallback is consulted exactly when the primary list
is empty. -/
def extract_from_soup (primary fallback : List (List Char)) : List (List Char) :=
  let reviews := primary
  if reviews.isEmpty then reviews ++ fallback else reviews

/-- State of the browser automation resource: how many selenium sessions
are currently open. -/
structure ScrapeState where
  openSessions : Nat
deriving DecidableEq, Repr

/-- Embedding of webdriver.Chrome(options): opens one session. -/
def createDriver (s : ScrapeState) : ScrapeState :=
  ⟨s.openSessions + 1⟩

/-- Embedding of driver.quit(): releases one session. -/
def quitDriver (s : ScrapeState) : ScrapeState :=
  ⟨s.openSessions - 1⟩

/-- Embedding of the whole body of extract_imdb_reviews: the driver is
created, the try block (the parameter body, which may end in a value or
in a propagated exception and may touch the state) runs, and the finally
clause quits the driver on both the normal and the exceptional path. -/
def extract_imdb_reviews
    (body : ScrapeState → Except String (List (List Char)) × ScrapeState)
    (s0 : ScrapeState) : Except String (List (List Char)) × ScrapeState :=
  let s1 := createDriver s0
  match body s1 with
  | (Except.ok reviews, s2) => (Except.ok reviews, quitDriver s2)
  | (Except.error e, s2) => (Except.error e, quitDriver s2)

/- ------------------------------------------------------------------
Text normalizer (src/utils/Preprocessor.py)
------------------------------------------------------------------ -/

/-- Python regex word character class (backslash w): alphanumeric or
underscore. ASCII fragment of the Unicode class. -/
def pyWordChar (c : Char) : Bool := c.isAlphanum || c == '_'

/-- Python regex whitespace class (backslash s): space, tab, newline,
carriage return, vertical tab, form feed. -/
def pyWhitespace (c : Char) : Bool :=
  c == ' ' || c == '\t' || c == '\n' || c == '\r' || c == '\u000B' || c == '\u000C'

/-- Embedding of the str.lower step (line 31 of Preprocessor.py). -/
def pyLower (s : List Char) : List Char := s.map Char.toLower

/-- Embedding of the punctuation removal step (line 34): the regex
substitution deletes every character outside the word and whitespace
classes, keeping the rest. -/
def pyClean (s : List Char) : List Char :=
  s.filter (fun c => pyWordChar c || pyWhitespace c)

/-- Helper of pySplit: accumulates the current token reversed, emitting
it when whitespace or the end of the input is reached. -/
def pySplitGo : List Char → List Char → List (List Char)
  | [], acc => if acc.isEmpty then [] else [acc.reverse]
  | c :: cs, acc =>
    if pyWhitespace c then
      (if acc.isEmpty then pySplitGo cs [] else acc.reverse :: pySplitGo cs [])
    else pySplitGo cs (c :: acc)

/-- Embedding of the Python str.split() with no argument: split on runs
of whitespace, dropping empty tokens. -/
def pySplit (s : List Char) : List (List Char) := pySplitGo s []

/-- Embedding of the single-space join used at lines 37 and 42. -/
def pyJoin : List (List Char) → List Char
  | [] => []
  | [t] => t
  | t :: t2 :: ts => t ++ ' ' :: pyJoin (t2 :: ts)

/-- Embedding of the stopword removal step (lines 37-39): split, keep
tokens outside the stopword set, rejoin with single spaces. -/
def removeStopwordTokens (stop_words : List (List Char)) (x : List Char) : List Char :=
  pyJoin ((pySplit x).filter (fun w => !decide (w ∈ stop_words)))

/-- Embedding of the lemmatization step (lines 42-44): split, lemmatize
each token, rejoin with single spaces. The lemmatizer is the external
WordNet resource, a parameter here. -/
def lemmatizeTokens (lemmatize : List Char → List Char) (x : List Char) : List Char :=
  pyJoin ((pySplit x).map lemmatize)

/-- Embedding of Preprocessor.preprocess_reviews on one review: the
four steps in source order. -/
def preprocess_review (lemmatize : List Char → List Char)
    (stop_words : List (List Char)) (t : List Char) : List Char :=
  lemmatizeTokens lemmatize (removeStopwordTokens stop_words (pyClean (pyLower t)))

/-- Embedding of Preprocessor.preprocess_reviews on a Series of reviews. -/
def preprocess_reviews (lemmatize : List Char → List Char)
    (stop_words : List (List Char)) (reviews : List (List Char)) : List (List Char) :=
  reviews.map (preprocess_review lemmatize stop_words)

/-- The NLTK English stopword corpus (the external data file loaded by
stopwords.words at line 13 of Preprocessor.py), transcribed entry by
entry. -/
def nltkStopwords : List (List Char) :=
  [toL "i", toL "me", toL "my", toL "myself", toL "we", toL "our", toL "ours",
   toL "ourselves", toL "you", toL "you're", toL "you've",
   toL "you'll", toL "you'd", toL "your", toL "yours",
   toL "yourself", toL "yourselves", toL "he", toL "him", toL "his",
   toL "himself", toL "she", toL "she's", toL "her", toL "hers",
   toL "herself", toL "it", toL "it's", toL "its", toL "itself",
   toL "they", toL "them", toL "their", toL "theirs", toL "themselves",
   toL "what", toL "which", toL "who", toL "whom", toL "this", toL "that",
   toL "that'll", toL "these", toL "those", toL "am", toL "is",
   toL "are", toL "was", toL "were", toL "be", toL "been", toL "being",
   toL "have", toL "has", toL "had", toL "having", toL "do", toL "does",
   toL "did", toL "doing", toL "a", toL "an", toL "the", toL "and",
   toL "but", toL "if", toL "or", toL "because", toL "as", toL "until",
   toL "while", toL "of", toL "at", toL "by", toL "for", toL "with",
   toL "about", toL "against", toL "between", toL "into", toL "through",
   toL "during", toL "before", toL "after", toL "above", toL "below",
   toL "to", toL "from", toL "up", toL "down", toL "in", toL "out",
   toL "on", toL "off", toL "over", toL "under", toL "again",
   toL "further", toL "then", toL "once", toL "here", toL "there",
   toL "when", toL "where", toL "why", toL "how", toL "all", toL "any",
   toL "both", toL "each", toL "few", toL "more", toL "most",
   toL "other", toL "some", toL "such", toL "no", toL "nor", toL "not",
   toL "only", toL "own", toL "same", toL "so", toL "than", toL "too",
   toL "very", toL "s", toL "t", toL "can", toL "will", toL "just",
   toL "don", toL "don't", toL "should", toL "should've",
   toL "now", toL "d", toL "ll", toL "m", toL "o", toL "re", toL "ve",
   toL "y", toL "ain", toL "aren", toL "aren't", toL "couldn",
   toL "couldn't", toL "didn", toL "didn't", toL "doesn",
   toL "doesn't", toL "hadn", toL "hadn't", toL "hasn",
   toL "hasn't", toL "haven", toL "haven't", toL "isn",
   toL "isn't", toL "ma", toL "mightn", toL "mightn't",
   toL "mustn", toL "mustn't", toL "needn", toL "needn't",
   toL "shan", toL "shan't", toL "shouldn", toL "shouldn't",
   toL "wasn", toL "wasn't", toL "weren", toL "weren't",
   toL "won", toL "won't", toL "wouldn", toL "wouldn't"]

/-- Modelled from the spec: the external WordNet lemmatizer of section
4.3 of the spec (code not in the repository; the NLTK resource is loaded
at line 14 of Preprocessor.py). Fragment restricted to the words used in
this development: the noun cans lemmatizes to its dictionary base form
can; a word already in base form maps to itself. -/
def nltkLemmatize (x : List Char) : List Char :=
  if x = toL "cans" then toL "can" else x

/- ------------------------------------------------------------------
Sentiment scorer (src/utils/SentimentAnalysis.py)
------------------------------------------------------------------ -/

/-- Modelled from the spec: the external TextBlob lexicon scorer of
section 4.4 of the spec (code not in the repository; TextBlob is
imported at line 2 of SentimentAnalysis.py). A fixed pretrained lexicon
maps known tokens to a polarity and a subjectivity; a text scores the
average of its matched entries, and a text matching no entry, in
particular the empty string, scores neutral (0, 0). -/
def textblobSentiment (lexicon : List (List Char × ℚ × ℚ)) (text : List Char) : ℚ × ℚ :=
  let hits := (pySplit text).filterMap (fun w => List.lookup w lexicon)
  if hits.isEmpty then (0, 0)
  else ((hits.map Prod.fst).sum / hits.length, (hits.map Prod.snd).sum / hits.length)

/-- Positional zip of the four column Series into DataFrame rows, the
construction at lines 17-22 of SentimentAnalysis.py. -/
def mkRows : List (List Char) → List (List Char) → List ℚ → List ℚ → List ScoredRow
  | r :: rs, v :: vs, p :: ps, s :: ss => ⟨r, v, p, s⟩ :: mkRows rs vs ps ss
  | _, _, _, _ => []

/-- Embedding of SentimentAnalysis.analyze_sentiment: polarity and
subjectivity columns are computed elementwise from the processed
reviews, then assembled with the raw and processed columns into rows.
The TextBlob scorer is the parameter score. -/
def analyze_sentiment (score : List Char → ℚ × ℚ)
    (reviews reviews_raw : List (List Char)) : List ScoredRow :=
  let polarity := reviews.map (fun x => (score x).1)
  let subjectivity := reviews.map (fun x => (score x).2)
  mkRows reviews_raw reviews polarity subjectivity

/-- Embedding of app.py sentiment_pipeline: preprocess the raw reviews,
then score them, pairing each row with its raw review. -/
def sentiment_pipeline (lemmatize : List Char → List Char)
    (stop_words : List (List Char)) (score : List Char → ℚ × ℚ)
    (raw_reviews : List (List Char)) : List ScoredRow :=
  analyze_sentiment score (preprocess_reviews lemmatize stop_words raw_reviews) raw_reviews

/- ------------------------------------------------------------------
Theorems: aggregation and bucketing
------------------------------------------------------------------ -/

/-- C1: polarity_bucket assigns exactly one of the three buckets with
thresholds plus and minus 0.05, the three ranges are exhaustive and
mutually exclusive, and the overall bucket is the same rule applied to
the mean polarity. -/
theorem polarity_bucket_partitions (p : ℚ) :
    (polarity_bucket p = "Positive" ↔ p > 0.05) ∧
    (polarity_bucket p = "Negative" ↔ p < -0.05) ∧
    (polarity_bucket p = "Neutral" ↔ -0.05 ≤ p ∧ p ≤ 0.05) ∧
    (polarity_bucket p = "Positive" ∨ polarity_bucket p = "Negative" ∨
      polarity_bucket p = "Neutral") ∧
    (∀ ps : List ℚ, overall_sentiment ps = polarity_bucket (seriesMean ps)) := by
  unfold polarity_bucket
  split_ifs with h1 h2
  · exact ⟨by simpa using h1, by simp; linarith, by simp; intro h; linarith,
      Or.inl rfl, fun ps => rfl⟩
  · exact ⟨by simp; linarith, by simpa using h2, by simp; intro h; linarith,
      Or.inr (Or.inl rfl), fun ps => rfl⟩
  · exact ⟨by simp; linarith, by simp; linarith,
      by simp; exact ⟨by linarith, by linarith⟩,
      Or.inr (Or.inr rfl), fun ps => rfl⟩

/- ------------------------------------------------------------------
Helper lemmas on the stable sorts
------------------------------------------------------------------ -/

theorem length_insertDescBy (key : ScoredRow → ℚ) (a : ScoredRow) (l : List ScoredRow) :
    (insertDescBy key a l).length = l.length + 1 := by
  induction l with
  | nil => rfl
  | cons b bs ih =>
    unfold insertDescBy
    split <;> simp [ih]

theorem length_sortDescBy (key : ScoredRow → ℚ) (l : List ScoredRow) :
    (sortDescBy key l).length = l.length := by
  induction l with
  | nil => rfl
  | cons x xs ih => simp [sortDescBy, length_insertDescBy, ih]

theorem mem_insertDescBy (key : ScoredRow → ℚ) (a r : ScoredRow) (l : List ScoredRow) :
    r ∈ insertDescBy key a l → r = a ∨ r ∈ l := by
  induction l with
  | nil => intro h; simp [insertDescBy] at h; exact Or.inl h
  | cons b bs ih =>
    unfold insertDescBy
    split
    · intro h
      rcases List.mem_cons.mp h with h1 | h2
      · exact Or.inr (List.mem_cons.mpr (Or.inl h1))
      · rcases ih h2 with h3 | h4
        · exact Or.inl h3
        · exact Or.inr (List.mem_cons.mpr (Or.inr h4))
    · intro h
      rcases List.mem_cons.mp h with h1 | h2
      · exact Or.inl h1
      · exact Or.inr h2

theorem mem_sortDescBy (key : ScoredRow → ℚ) (r : ScoredRow) (l : List ScoredRow) :
    r ∈ sortDescBy key l → r ∈ l := by
  induction l with
  | nil => intro h; exact absurd h (by simp [sortDescBy])
  | cons x xs ih =>
    intro h
    rcases mem_insertDescBy key x r (sortDescBy key xs) h with h1 | h2
    · exact h1 ▸ List.mem_cons_self x xs
    · exact List.mem_cons.mpr (Or.inr (ih h2))

theorem length_insertAscBy (key : ScoredRow → ℚ) (a : ScoredRow) (l : List ScoredRow) :
    (insertAscBy key a l).length = l.length + 1 := by
  induction l with
  | nil => rfl
  | cons b bs ih =>
    unfold insertAscBy
    split <;> simp [ih]

theorem length_sortAscBy (key : ScoredRow → ℚ) (l : List ScoredRow) :
    (sortAscBy key l).length = l.length := by
  induction l with
  | nil => rfl
  | cons x xs ih => simp [sortAscBy, length_insertAscBy, ih]

theorem mem_insertAscBy (key : ScoredRow → ℚ) (a r : ScoredRow) (l : List ScoredRow) :
    r ∈ insertAscBy key a l → r = a ∨ r ∈ l := by
  induction l with
  | nil => intro h; simp [insertAscBy] at h; exact Or.inl h
  | cons b bs ih =>
    unfold insertAscBy
    split
    · intro h
      rcases List.mem_cons.mp h with h1 | h2
      · exact Or.inr (List.mem_cons.mpr (Or.inl h1))
      · rcases ih h2 with h3 | h4
        · exact Or.inl h3
        · exact Or.inr (List.mem_cons.mpr (Or.inr h4))
    · intro h
      rcases List.mem_cons.mp h with h1 | h2
      · exact Or.inl h1
      · exact Or.inr h2

theorem mem_sortAscBy (key : ScoredRow → ℚ) (r : ScoredRow) (l : List ScoredRow) :
    r ∈ sortAscBy key l → r ∈ l := by
  induction l with
  | nil => intro h; exact absurd h (by simp [sortAscBy])
  | cons x xs ih =>
    intro h
    rcases mem_insertAscBy key x r (sortAscBy key xs) h with h1 | h2
    · exact h1 ▸ List.mem_cons_self x xs
    · exact List.mem_cons.mpr (Or.inr (ih h2))

theorem pairwise_insertDescBy (key : ScoredRow → ℚ) (a : ScoredRow)
    (l : List ScoredRow) (hl : l.Pairwise (fun x y => key y ≤ key x)) :
    (insertDescBy key a l).Pairwise (fun x y => key y ≤ key x) := by
  induction l with
  | nil => simp [insertDescBy]
  | cons b bs ih =>
    rcases List.pairwise_cons.mp hl with ⟨hb, hbs⟩
    unfold insertDescBy
    split
    · refine List.pairwise_cons.mpr ⟨?_, ih hbs⟩
      intro x hx
      rcases mem_insertDescBy key a x bs hx with h1 | h1
      · exact h1 ▸ le_of_lt (by assumption)
      · exact hb x h1
    · refine List.pairwise_cons.mpr ⟨?_, hl⟩
      intro x hx
      rcases List.mem_cons.mp hx with h1 | h1
      · exact h1 ▸ le_of_not_lt (by assumption)
      · exact le_trans (hb x h1) (le_of_not_lt (by assumption))

theorem pairwise_sortDescBy (key : ScoredRow → ℚ) (l : List ScoredRow) :
    (sortDescBy key l).Pairwise (fun x y => key y ≤ key x) := by
  induction l with
  | nil => simp [sortDescBy]
  | cons x xs ih => exact pairwise_insertDescBy key x (sortDescBy key xs) ih

theorem pairwise_insertAscBy (key : ScoredRow → ℚ) (a : ScoredRow)
    (l : List ScoredRow) (hl : l.Pairwise (fun x y => key x ≤ key y)) :
    (insertAscBy key a l).Pairwise (fun x y => key x ≤ key y) := by
  induction l with
  | nil => simp [insertAscBy]
  | cons b bs ih =>
    rcases List.pairwise_cons.mp hl with ⟨hb, hbs⟩
    unfold insertAscBy
    split
    · refine List.pairwise_cons.mpr ⟨?_, ih hbs⟩
      intro x hx
      rcases mem_insertAscBy key a x bs hx with h1 | h1
      · exact h1 ▸ le_of_lt (by assumption)
      · exact hb x h1
    · refine List.pairwise_cons.mpr ⟨?_, hl⟩
      intro x hx
      rcases List.mem_cons.mp hx with h1 | h1
      · exact h1 ▸ le_of_not_lt (by assumption)
      · exact le_trans (le_of_not_lt (by assumption)) (hb x h1)

theorem pairwise_sortAscBy (key : ScoredRow → ℚ) (l : List ScoredRow) :
    (sortAscBy key l).Pairwise (fun x y => key x ≤ key y) := by
  induction l with
  | nil => simp [sortAscBy]
  | cons x xs ih => exact pairwise_insertAscBy key x (sortAscBy key xs) ih

theorem perm_insertDescBy (key : ScoredRow → ℚ) (a : ScoredRow) (l : List ScoredRow) :
    List.Perm (insertDescBy key a l) (a :: l) := by
  induction l with
  | nil => exact List.Perm.refl _
  | cons b bs ih =>
    unfold insertDescBy
    split
    · exact (ih.cons b).trans (List.Perm.swap a b bs)
    · exact List.Perm.refl _

theorem perm_sortDescBy (key : ScoredRow → ℚ) (l : List ScoredRow) :
    List.Perm (sortDescBy key l) l := by
  induction l with
  | nil => exact List.Perm.refl _
  | cons x xs ih =>
    exact (perm_insertDescBy key x (sortDescBy key xs)).trans (ih.cons x)

theorem perm_insertAscBy (key : ScoredRow → ℚ) (a : ScoredRow) (l : List ScoredRow) :
    List.Perm (insertAscBy key a l) (a :: l) := by
  induction l with
  | nil => exact List.Perm.refl _
  | cons b bs ih =>
    unfold insertAscBy
    split
    · exact (ih.cons b).trans (List.Perm.swap a b bs)
    · exact List.Perm.refl _

theorem perm_sortAscBy (key : ScoredRow → ℚ) (l : List ScoredRow) :
    List.Perm (sortAscBy key l) l := by
  induction l with
  | nil => exact List.Perm.refl _
  | cons x xs ih =>
    exact (perm_insertAscBy key x (sortAscBy key xs)).trans (ih.cons x)

theorem filter_insertDescBy (key : ScoredRow → ℚ) (a : ScoredRow)
    (l : List ScoredRow) (q : ℚ) :
    (insertDescBy key a l).filter (fun r => decide (key r = q)) =
      (if key a = q then a :: l.filter (fun r => decide (key r = q))
       else l.filter (fun r => decide (key r = q))) := by
  induction l with
  | nil =>
    by_cases h : key a = q <;> simp [insertDescBy, h]
  | cons b bs ih =>
    unfold insertDescBy
    split
    · rename_i hgt
      by_cases hbq : key b = q
      · have haq : key a ≠ q := hbq ▸ ne_of_lt hgt
        simp [List.filter_cons, hbq, haq, ih]
      · by_cases haq : key a = q <;>
          simp [List.filter_cons, hbq, haq, ih]
    · by_cases haq : key a = q <;> simp [List.filter_cons, haq]

theorem filter_sortDescBy (key : ScoredRow → ℚ) (l : List ScoredRow) (q : ℚ) :
    (sortDescBy key l).filter (fun r => decide (key r = q)) =
      l.filter (fun r => decide (key r = q)) := by
  induction l with
  | nil => rfl
  | cons x xs ih =>
    simp only [sortDescBy]
    rw [filter_insertDescBy]
    by_cases hxq : key x = q <;> simp [hxq, ih, List.filter_cons]

theorem filter_insertAscBy (key : ScoredRow → ℚ) (a : ScoredRow)
    (l : List ScoredRow) (q : ℚ) :
    (insertAscBy key a l).filter (fun r => decide (key r = q)) =
      (if key a = q then a :: l.filter (fun r => decide (key r = q))
       else l.filter (fun r => decide (key r = q))) := by
  induction l with
  | nil =>
    by_cases h : key a = q <;> simp [insertAscBy, h]
  | cons b bs ih =>
    unfold insertAscBy
    split
    · rename_i hlt
      by_cases hbq : key b = q
      · have haq : key a ≠ q := (hbq ▸ ne_of_gt hlt)
        simp [List.filter_cons, hbq, haq, ih]
      · by_cases haq : key a = q <;>
          simp [List.filter_cons, hbq, haq, ih]
    · by_cases haq : key a = q <;> simp [List.filter_cons, haq]

theorem filter_sortAscBy (key : ScoredRow → ℚ) (l : List ScoredRow) (q : ℚ) :
    (sortAscBy key l).filter (fun r => decide (key r = q)) =
      l.filter (fun r => decide (key r = q)) := by
  induction l with
  | nil => rfl
  | cons x xs ih =>
    simp only [sortAscBy]
    rw [filter_insertAscBy]
    by_cases hxq : key x = q <;> simp [hxq, ih, List.filter_cons]

/-- C2: top_positive and top_negative select the up-to-3 rows with the
largest, respectively smallest, polarity, with ties broken by original
extraction order, and each has length min 3 n. In detail: each result
has length min 3 n (so never more than 3 and never more than the input
length); its rows come from the input table; it is ordered by
non-increasing (respectively non-decreasing) polarity; it is the
3-prefix of a full sort whose remaining (dropped) rows, which together
with the selected rows are exactly the input as a multiset, all have
polarity at most (respectively at least) that of every selected row —
so the selection is the up-to-3 largest (smallest) rows counted with
multiplicity; that full sort is stable: its rows of any fixed polarity
q are exactly the input rows of polarity q in their original input
order, so ties keep extraction order; and on a singleton input both
selections return exactly that one row. -/
theorem top_selection_bounds (df : List ScoredRow) :
    (top_positive df).length = min 3 df.length ∧
    (top_negative df).length = min 3 df.length ∧
    (∀ r ∈ top_positive df, r ∈ df) ∧
    (∀ r ∈ top_negative df, r ∈ df) ∧
    (top_positive df).Pairwise (fun x y => y.polarity ≤ x.polarity) ∧
    (top_negative df).Pairwise (fun x y => x.polarity ≤ y.polarity) ∧
    top_positive df = (sortDescBy ScoredRow.polarity df).take 3 ∧
    top_negative df = (sortAscBy ScoredRow.polarity df).take 3 ∧
    List.Perm (top_positive df ++ (sortDescBy ScoredRow.polarity df).drop 3) df ∧
    List.Perm (top_negative df ++ (sortAscBy ScoredRow.polarity df).drop 3) df ∧
    (∀ r ∈ top_positive df, ∀ s ∈ (sortDescBy ScoredRow.polarity df).drop 3,
      s.polarity ≤ r.polarity) ∧
    (∀ r ∈ top_negative df, ∀ s ∈ (sortAscBy ScoredRow.polarity df).drop 3,
      r.polarity ≤ s.polarity) ∧
    (∀ q : ℚ, (sortDescBy ScoredRow.polarity df).filter
        (fun r => decide (r.polarity = q)) =
      df.filter (fun r => decide (r.polarity = q))) ∧
    (∀ q : ℚ, (sortAscBy ScoredRow.polarity df).filter
        (fun r => decide (r.polarity = q)) =
      df.filter (fun r => decide (r.polarity = q))) ∧
    (∀ row : ScoredRow, top_positive [row] = [row] ∧ top_negative [row] = [row]) := by
  have hsplitD := List.take_append_drop 3 (sortDescBy ScoredRow.polarity df)
  have hsplitA := List.take_append_drop 3 (sortAscBy ScoredRow.polarity df)
  have hpwD := pairwise_sortDescBy ScoredRow.polarity df
  have hpwA := pairwise_sortAscBy ScoredRow.polarity df
  rw [← hsplitD] at hpwD
  rw [← hsplitA] at hpwA
  refine ⟨?_, ?_, ?_, ?_, ?_, ?_, rfl, rfl, ?_, ?_, ?_, ?_, ?_, ?_, ?_⟩
  · simp [top_positive, List.length_take, length_sortDescBy]
  · simp [top_negative, List.length_take, length_sortAscBy]
  · intro r hr
    exact mem_sortDescBy ScoredRow.polarity r df (List.mem_of_mem_take hr)
  · intro r hr
    exact mem_sortAscBy ScoredRow.polarity r df (List.mem_of_mem_take hr)
  · exact (pairwise_sortDescBy ScoredRow.polarity df).sublist
      (List.take_sublist 3 _)
  · exact (pairwise_sortAscBy ScoredRow.polarity df).sublist
      (List.take_sublist 3 _)
  · show List.Perm ((sortDescBy ScoredRow.polarity df).take 3 ++
      (sortDescBy ScoredRow.polarity df).drop 3) df
    rw [hsplitD]
    exact perm_sortDescBy ScoredRow.polarity df
  · show List.Perm ((sortAscBy ScoredRow.polarity df).take 3 ++
      (sortAscBy ScoredRow.polarity df).drop 3) df
    rw [hsplitA]
    exact perm_sortAscBy ScoredRow.polarity df
  · exact (List.pairwise_append.mp hpwD).2.2
  · exact (List.pairwise_append.mp hpwA).2.2
  · exact filter_sortDescBy ScoredRow.polarity df
  · exact filter_sortAscBy ScoredRow.polarity df
  · intro row
    exact ⟨rfl, rfl⟩

/- ------------------------------------------------------------------
Theorems: movie resolver
------------------------------------------------------------------ -/

/-- Eleven-candidate lookup result used to show search_movies applies no cap. -/
def elevenResults : List MovieCandidate :=
  List.replicate 11 ⟨toL "m", none, toL "0000001"⟩

/-- C6 counterexample: on a lookup returning eleven candidates,
search_movies itself returns all eleven, not a list capped to the first
ten. -/
theorem search_movies_not_capped :
    (search_movies elevenResults).length = 11 ∧
    ¬ (search_movies elevenResults).length ≤ 10 ∧
    search_movies elevenResults ≠ elevenResults.take 10 := by
  refine ⟨rfl, by decide, ?_⟩
  intro h
  have := congrArg List.length h
  simp [search_movies, elevenResults] at this

/-- C6 amended: search_movies returns the full lookup result unchanged
and in order; the cap to the first ten is applied at the call site in
app.py, so the candidate sequence the caller works with is the
ten-element prefix, with length min 10 n and never more than ten. -/
theorem resolver_capped_at_call_site (results : List MovieCandidate) :
    search_movies results = results ∧
    get_movie_candidates_capped results = results.take 10 ∧
    (get_movie_candidates_capped results).length = min 10 results.length ∧
    (get_movie_candidates_capped results).length ≤ 10 := by
  exact ⟨rfl, rfl, by simp [get_movie_candidates_capped, search_movies],
    by simp [get_movie_candidates_capped, search_movies]⟩

/-- C7: find_and_get_reviews_link yields none on an empty fresh lookup,
and otherwise builds the reviews URL from the identifier of the first
candidate of that fresh lookup; the result depends only on that first
candidate, never on the rest of the lookup (nor on any previously chosen
candidate, which is not an input of the operation at all). -/
theorem reviews_link_from_first_candidate :
    find_and_get_reviews_link [] = none ∧
    (∀ (m : MovieCandidate) (rest : List MovieCandidate),
      find_and_get_reviews_link (m :: rest) =
        some (toL "https://www.imdb.com/title/tt" ++ m.movieID ++ toL "/reviews")) ∧
    (∀ (m : MovieCandidate) (rest1 rest2 : List MovieCandidate),
      find_and_get_reviews_link (m :: rest1) = find_and_get_reviews_link (m :: rest2)) :=
  ⟨rfl, fun _ _ => rfl, fun _ _ _ => rfl⟩

/- ------------------------------------------------------------------
Theorems: review extractor
------------------------------------------------------------------ -/

/-- C8: the fallback selector is consulted exactly when the primary
selector found nothing: a non-empty primary result is returned untouched
(no fallback, no other retry), an empty primary result is replaced by
whatever the single fallback attempt found, and when both selectors find
nothing the result is the empty list, returned as an ordinary value. -/
theorem fallback_only_on_empty_primary :
    (∀ (x : List Char) (xs fallback : List (List Char)),
      extract_from_soup (x :: xs) fallback = x :: xs) ∧
    (∀ fallback : List (List Char), extract_from_soup [] fallback = fallback) ∧
    extract_from_soup [] [] = [] :=
  ⟨fun _ _ _ => rfl, fun _ => rfl, rfl⟩

/-- C9: once the driver is created, every exit path of
extract_imdb_reviews releases the session: whether the body returns its
review list normally or propagates an exception, the open-session count
returns to its initial value, and on the normal path the review list is
handed back unchanged. -/
theorem driver_released_on_every_path
    (body : ScrapeState → Except String (List (List Char)) × ScrapeState)
    (s0 : ScrapeState)
    (hbody : ∀ t, (body t).2 = t) :
    (extract_imdb_reviews body s0).2 = s0 ∧
    (extract_imdb_reviews body s0).1 = (body (createDriver s0)).1 := by
  have h2 := hbody (createDriver s0)
  cases hb : body (createDriver s0) with
  | mk r s2 =>
    rw [hb] at h2
    simp at h2
    subst h2
    simp only [createDriver] at hb
    cases r <;> simp [extract_imdb_reviews, hb, quitDriver, createDriver]

/-- Witness for C9 at a body that always propagates a navigation error. -/
theorem driver_released_on_every_path_witness :
    (extract_imdb_reviews (fun t => (Except.error "nav failure", t)) ⟨0⟩).2 = ⟨0⟩ ∧
    (extract_imdb_reviews (fun t => (Except.error "nav failure", t)) ⟨0⟩).1 =
      ((fun (t : ScrapeState) =>
        ((Except.error "nav failure" : Except String (List (List Char))), t))
        (createDriver ⟨0⟩)).1 :=
  driver_released_on_every_path (fun t => (Except.error "nav failure", t)) ⟨0⟩
    (fun _ => rfl)

/- ------------------------------------------------------------------
Helper lemmas on the normalizer pipeline
------------------------------------------------------------------ -/

theorem list_map_id_of_mem {α : Type} (f : α → α) (l : List α)
    (h : ∀ x ∈ l, f x = x) : l.map f = l := by
  induction l with
  | nil => rfl
  | cons a as ih =>
    simp only [List.map_cons, h a (List.mem_cons_self a as)]
    rw [ih fun x hx => h x (List.mem_cons_of_mem a hx)]

theorem pyLower_pyJoin (ts : List (List Char)) :
    pyLower (pyJoin ts) = pyJoin (ts.map pyLower) := by
  induction ts with
  | nil => rfl
  | cons t ts ih =>
    cases ts with
    | nil => rfl
    | cons t2 ts2 =>
      have hsp : Char.toLower ' ' = ' ' := rfl
      simp only [pyJoin, List.map_cons] at ih ⊢
      simp only [pyLower, List.map_append, List.map_cons, hsp] at ih ⊢
      rw [ih]

theorem pyClean_pyJoin (ts : List (List Char)) :
    pyClean (pyJoin ts) = pyJoin (ts.map pyClean) := by
  induction ts with
  | nil => rfl
  | cons t ts ih =>
    cases ts with
    | nil => rfl
    | cons t2 ts2 =>
      have hsp : (pyWordChar ' ' || pyWhitespace ' ') = true := rfl
      simp only [pyJoin, List.map_cons] at ih ⊢
      simp only [pyClean, List.filter_append, List.filter_cons, hsp, if_true] at ih ⊢
      rw [ih]

theorem pySplitGo_no_ws (t : List Char) (rest acc : List Char)
    (h : ∀ c ∈ t, pyWhitespace c = false) :
    pySplitGo (t ++ rest) acc = pySplitGo rest (t.reverse ++ acc) := by
  induction t generalizing acc with
  | nil => simp
  | cons c t ih =>
    have hc : pyWhitespace c = false := h c (List.mem_cons_self c t)
    simp only [List.cons_append, pySplitGo, hc, Bool.false_eq_true, if_false,
      List.append_eq]
    rw [ih (c :: acc) fun x hx => h x (List.mem_cons_of_mem c hx)]
    simp

theorem pySplit_pyJoin (ts : List (List Char))
    (hne : ∀ t ∈ ts, t ≠ [])
    (hws : ∀ t ∈ ts, ∀ c ∈ t, pyWhitespace c = false) :
    pySplit (pyJoin ts) = ts := by
  induction ts with
  | nil => rfl
  | cons t ts ih =>
    have htne : t ≠ [] := hne t (List.mem_cons_self t ts)
    have htws := hws t (List.mem_cons_self t ts)
    have hrevne : t.reverse.isEmpty = false := by
      cases hrt : t.reverse.isEmpty
      · rfl
      · exact absurd (List.reverse_eq_nil_iff.mp (List.isEmpty_iff.mp hrt)) htne
    cases ts with
    | nil =>
      have h1 := pySplitGo_no_ws t [] [] htws
      simp only [List.append_nil] at h1
      simp only [pySplit, pyJoin, h1, pySplitGo, hrevne, Bool.false_eq_true,
        if_false, List.reverse_reverse]
    | cons t2 ts2 =>
      have h1 := pySplitGo_no_ws t (' ' :: pyJoin (t2 :: ts2)) [] htws
      have hsp : pyWhitespace ' ' = true := rfl
      simp only [pySplit, pyJoin] at ih ⊢
      rw [h1]
      simp only [List.append_nil, pySplitGo, hsp, if_true, hrevne,
        Bool.false_eq_true, if_false, List.reverse_reverse]
      rw [ih (fun x hx => hne x (List.mem_cons_of_mem t hx))
        (fun x hx => hws x (List.mem_cons_of_mem t hx))]

theorem wordChar_not_ws (c : Char) (h : pyWordChar c = true) :
    pyWhitespace c = false := by
  cases hx : pyWhitespace c
  · rfl
  · exfalso
    have hx6 : c = ' ' ∨ c = '\t' ∨ c = '\n' ∨ c = '\r' ∨
        c = '\u000B' ∨ c = '\u000C' := by
      simp only [pyWhitespace, Bool.or_eq_true, beq_iff_eq] at hx
      tauto
    rcases hx6 with h1 | h1 | h1 | h1 | h1 | h1 <;> subst h1 <;>
      exact absurd h (by decide)

/- ------------------------------------------------------------------
Theorems: text normalizer and scorer
------------------------------------------------------------------ -/

/-- C3 counterexample: the cleaning step of the source keeps the
underscore, a character that is neither alphanumeric nor whitespace, so
the intermediate string after step 2 is not free of such characters;
the whole pipeline even returns one. -/
theorem cleaning_keeps_underscore :
    pyClean (pyLower (toL "a_b")) = toL "a_b" ∧
    Char.isAlphanum '_' = false ∧
    pyWhitespace '_' = false ∧
    preprocess_review (fun w => w) [] (toL "a_b") = toL "a_b" := by
  exact ⟨by decide, by decide, by decide, by decide⟩

/-- C3 amended: normalize is the stated deterministic five-step
composition, except that step 2 removes exactly the characters that are
not word characters (alphanumeric or underscore) and not whitespace;
after step 2 every remaining character is a word character or
whitespace, with the underscore allowed to survive. -/
theorem normalize_pipeline_steps (lemmatize : List Char → List Char)
    (sw : List (List Char)) (t : List Char) :
    preprocess_review lemmatize sw t =
      pyJoin ((pySplit (pyJoin ((pySplit (pyClean (pyLower t))).filter
        (fun w => !decide (w ∈ sw))))).map lemmatize) ∧
    (∀ c ∈ pyClean (pyLower t), (pyWordChar c || pyWhitespace c) = true) ∧
    pyClean (pyLower t) =
      (pyLower t).filter (fun c => pyWordChar c || pyWhitespace c) := by
  refine ⟨rfl, ?_, rfl⟩
  intro c hc
  simp only [pyClean] at hc
  exact (List.mem_filter.mp hc).2

/-- C4 counterexample, against the transcribed NLTK stopword corpus and
the WordNet lemmatizer fragment: the word cans survives stopword removal
and lemmatizes to can, itself a stopword, so a first normalization
returns can while a second one deletes it: normalization is not
idempotent on every input. -/
theorem normalize_not_idempotent_on_nltk :
    preprocess_review nltkLemmatize nltkStopwords (toL "cans") = toL "can" ∧
    preprocess_review nltkLemmatize nltkStopwords
      (preprocess_review nltkLemmatize nltkStopwords (toL "cans")) = [] ∧
    preprocess_review nltkLemmatize nltkStopwords
      (preprocess_review nltkLemmatize nltkStopwords (toL "cans")) ≠
      preprocess_review nltkLemmatize nltkStopwords (toL "cans") := by
  exact ⟨by decide, by decide, by decide⟩

/-- C4 amended: normalizing twice equals normalizing once for every
input, provided the lemmatizer is well behaved on the tokens it emits:
its outputs are lowercase, consist of word characters, are non-empty,
are not stopwords, and are fixed points of further lemmatization. With
the real NLTK resources the last two assumptions can fail (a lemma can
be a stopword, as cans to can), which is what the counterexample
exhibits. -/
theorem normalize_idempotent (lemmatize : List Char → List Char)
    (sw : List (List Char))
    (ha : ∀ w, pyLower (lemmatize w) = lemmatize w)
    (hb : ∀ w, ∀ c ∈ lemmatize w, pyWordChar c = true)
    (hc : ∀ w, lemmatize w ≠ [])
    (hd : ∀ w, lemmatize w ∉ sw)
    (he : ∀ w, lemmatize (lemmatize w) = lemmatize w)
    (t : List Char) :
    preprocess_review lemmatize sw (preprocess_review lemmatize sw t) =
      preprocess_review lemmatize sw t := by
  unfold preprocess_review lemmatizeTokens removeStopwordTokens
  set ls := (pySplit (pyJoin ((pySplit (pyClean (pyLower t))).filter
    (fun w => !decide (w ∈ sw))))).map lemmatize with hls
  have hA : ∀ x ∈ ls, pyLower x = x := by
    intro x hx
    obtain ⟨w, _, rfl⟩ := List.mem_map.mp hx
    exact ha w
  have hB : ∀ x ∈ ls, ∀ c ∈ x, pyWordChar c = true := by
    intro x hx
    obtain ⟨w, _, rfl⟩ := List.mem_map.mp hx
    exact hb w
  have hC : ∀ x ∈ ls, x ≠ [] := by
    intro x hx
    obtain ⟨w, _, rfl⟩ := List.mem_map.mp hx
    exact hc w
  have hD : ∀ x ∈ ls, x ∉ sw := by
    intro x hx
    obtain ⟨w, _, rfl⟩ := List.mem_map.mp hx
    exact hd w
  have hE : ∀ x ∈ ls, lemmatize x = x := by
    intro x hx
    obtain ⟨w, _, rfl⟩ := List.mem_map.mp hx
    exact he w
  have step1 : pyLower (pyJoin ls) = pyJoin ls := by
    rw [pyLower_pyJoin, list_map_id_of_mem pyLower ls hA]
  have step2 : pyClean (pyJoin ls) = pyJoin ls := by
    rw [pyClean_pyJoin]
    congr 1
    refine list_map_id_of_mem pyClean ls ?_
    intro x hx
    exact List.filter_eq_self.mpr fun c hcx =>
      Bool.or_eq_true _ _ ▸ Or.inl (hB x hx c hcx)
  have step3 : pySplit (pyJoin ls) = ls :=
    pySplit_pyJoin ls hC fun x hx c hcx => wordChar_not_ws c (hB x hx c hcx)
  have step4 : ls.filter (fun w => !decide (w ∈ sw)) = ls := by
    refine List.filter_eq_self.mpr ?_
    intro x hx
    simp [hD x hx]
  rw [step1, step2, step3, step4, step3, list_map_id_of_mem lemmatize ls hE]

/-- Witness for C4 amended at a constant lemmatizer and a one-word
stopword set. -/
theorem normalize_idempotent_witness :
    preprocess_review (fun _ => toL "cat") [toL "the"]
      (preprocess_review (fun _ => toL "cat") [toL "the"] (toL "The cat runs!")) =
    preprocess_review (fun _ => toL "cat") [toL "the"] (toL "The cat runs!") :=
  normalize_idempotent (fun _ => toL "cat") [toL "the"] (fun _ => rfl)
    (fun _ => (by decide : ∀ c ∈ toL "cat", pyWordChar c = true))
    (fun _ => (by decide : toL "cat" ≠ []))
    (fun _ => (by decide : toL "cat" ∉ [toL "the"]))
    (fun _ => rfl)
    (toL "The cat runs!")

/-- C5: an input that is empty or whose tokens after lowercasing and
punctuation removal are all stopwords normalizes to the empty string,
and the sentiment scorer on the empty string returns exactly polarity 0
and subjectivity 0, whatever its lexicon. -/
theorem empty_or_all_stopword_input (lemmatize : List Char → List Char)
    (sw : List (List Char)) (t : List Char)
    (h : ∀ w ∈ pySplit (pyClean (pyLower t)), w ∈ sw) :
    preprocess_review lemmatize sw t = [] ∧
    (∀ lexicon : List (List Char × ℚ × ℚ), textblobSentiment lexicon [] = (0, 0)) := by
  constructor
  · unfold preprocess_review lemmatizeTokens removeStopwordTokens
    have hnil : (pySplit (pyClean (pyLower t))).filter
        (fun w => !decide (w ∈ sw)) = [] := by
      refine List.filter_eq_nil_iff.mpr ?_
      intro w hw
      simp [h w hw]
    rw [hnil]
    rfl
  · intro lexicon
    rfl

/-- Witness for C5 at the identity lemmatizer, the NLTK stopword corpus
and an input made only of stopwords and punctuation. -/
theorem empty_or_all_stopword_input_witness :
    preprocess_review (fun w => w) nltkStopwords (toL "The... and, OF!") = [] ∧
    (∀ lexicon : List (List Char × ℚ × ℚ), textblobSentiment lexicon [] = (0, 0)) :=
  empty_or_all_stopword_input (fun w => w) nltkStopwords (toL "The... and, OF!")
    (by decide)

/- ------------------------------------------------------------------
Theorems: scored table alignment
------------------------------------------------------------------ -/

theorem sentiment_pipeline_eq_map (lemmatize : List Char → List Char)
    (sw : List (List Char)) (score : List Char → ℚ × ℚ)
    (raws : List (List Char)) :
    sentiment_pipeline lemmatize sw score raws = raws.map (fun raw =>
      ⟨raw, preprocess_review lemmatize sw raw,
        (score (preprocess_review lemmatize sw raw)).1,
        (score (preprocess_review lemmatize sw raw)).2⟩) := by
  induction raws with
  | nil => rfl
  | cons r rs ih =>
    simp only [sentiment_pipeline, preprocess_reviews, analyze_sentiment,
      List.map_cons, mkRows] at ih ⊢
    rw [ih]

/-- C10: the scored table has exactly one row per raw review, in input
order, and row i pairs the i-th raw review with its own normalization
and with the polarity and subjectivity computed from that same
normalized text, for every position i. -/
theorem scored_table_aligned (lemmatize : List Char → List Char)
    (sw : List (List Char)) (score : List Char → ℚ × ℚ)
    (raws : List (List Char)) :
    (sentiment_pipeline lemmatize sw score raws).length = raws.length ∧
    ∀ i : Nat, (sentiment_pipeline lemmatize sw score raws)[i]? =
      raws[i]?.map (fun raw =>
        ⟨raw, preprocess_review lemmatize sw raw,
          (score (preprocess_review lemmatize sw raw)).1,
          (score (preprocess_review lemmatize sw raw)).2⟩) := by
  rw [sentiment_pipeline_eq_map]
  constructor
  · exact List.length_map raws _
  · intro i
    exact List.getElem?_map ..
